import Mathlib

/-!
Verification of the pnch time-tracking core: a shallow embedding of the
fixed-width binary codec (Tag, Pnch, Config), the tag table, the punch
store lifecycle, and the ls query filter, together with theorems checking
the specified properties against this embedding.

Machine integers are modelled as Nat (bytes are Nats < 256, u32 values are
Nats < 2^32); Rust strings are modelled as their UTF-8 byte lists; fallible
operations return Except; the in-place mutation of Pnch::out is modelled as
a function returning the post-state paired with an optional error.
-/

set_option maxRecDepth 8000

/-- Little-endian encoding of a u32 value into four bytes
(models Rust u32::to_le_bytes). -/
def u32ToLe (n : Nat) : List Nat :=
  [n % 256, n / 256 % 256, n / 65536 % 256, n / 16777216 % 256]

/-- Little-endian decoding of four bytes into a u32 value
(models Rust u32::from_le_bytes). -/
def leToU32 (l : List Nat) : Nat :=
  match l with
  | [a, b, c, d] => a + 256 * b + 65536 * c + 16777216 * d
  | _ => 0

theorem leToU32_u32ToLe (n : Nat) (h : n < 4294967296) : leToU32 (u32ToLe n) = n := by
  simp only [u32ToLe, leToU32]
  omega

theorem u32ToLe_length (n : Nat) : (u32ToLe n).length = 4 := rfl

/-- Validity of a byte list as UTF-8, models the check done by Rust's
String::from_utf8: ASCII, 2-byte (C2..DF), 3-byte (E0/E1..EC/ED/EE..EF with
their continuation ranges, excluding surrogates and overlong forms) and
4-byte (F0/F1..F3/F4) sequences. -/
def isValidUtf8 : List Nat → Bool
  | [] => true
  | b :: rest =>
    if b < 0x80 then isValidUtf8 rest
    else if 0xC2 ≤ b ∧ b ≤ 0xDF then
      match rest with
      | c :: rest => (0x80 ≤ c ∧ c ≤ 0xBF : Bool) && isValidUtf8 rest
      | [] => false
    else if b = 0xE0 then
      match rest with
      | c1 :: c2 :: rest =>
        (0xA0 ≤ c1 ∧ c1 ≤ 0xBF : Bool) && (0x80 ≤ c2 ∧ c2 ≤ 0xBF : Bool) && isValidUtf8 rest
      | _ => false
    else if (0xE1 ≤ b ∧ b ≤ 0xEC) ∨ (0xEE ≤ b ∧ b ≤ 0xEF) then
      match rest with
      | c1 :: c2 :: rest =>
        (0x80 ≤ c1 ∧ c1 ≤ 0xBF : Bool) && (0x80 ≤ c2 ∧ c2 ≤ 0xBF : Bool) && isValidUtf8 rest
      | _ => false
    else if b = 0xED then
      match rest with
      | c1 :: c2 :: rest =>
        (0x80 ≤ c1 ∧ c1 ≤ 0x9F : Bool) && (0x80 ≤ c2 ∧ c2 ≤ 0xBF : Bool) && isValidUtf8 rest
      | _ => false
    else if b = 0xF0 then
      match rest with
      | c1 :: c2 :: c3 :: rest =>
        (0x90 ≤ c1 ∧ c1 ≤ 0xBF : Bool) && (0x80 ≤ c2 ∧ c2 ≤ 0xBF : Bool) &&
        (0x80 ≤ c3 ∧ c3 ≤ 0xBF : Bool) && isValidUtf8 rest
      | _ => false
    else if 0xF1 ≤ b ∧ b ≤ 0xF3 then
      match rest with
      | c1 :: c2 :: c3 :: rest =>
        (0x80 ≤ c1 ∧ c1 ≤ 0xBF : Bool) && (0x80 ≤ c2 ∧ c2 ≤ 0xBF : Bool) &&
        (0x80 ≤ c3 ∧ c3 ≤ 0xBF : Bool) && isValidUtf8 rest
      | _ => false
    else if b = 0xF4 then
      match rest with
      | c1 :: c2 :: c3 :: rest =>
        (0x80 ≤ c1 ∧ c1 ≤ 0x8F : Bool) && (0x80 ≤ c2 ∧ c2 ≤ 0xBF : Bool) &&
        (0x80 ≤ c3 ∧ c3 ≤ 0xBF : Bool) && isValidUtf8 rest
      | _ => false
    else false

/-- Fuel-driven worker for chunksExact; the fuel starts at the list length,
which bounds the number of chunks. -/
def chunksExactAux (n : Nat) : Nat → List Nat → List (List Nat)
  | 0, _ => []
  | fuel + 1, l => if l.length < n then [] else l.take n :: chunksExactAux n fuel (l.drop n)

/-- Models Rust slice::chunks_exact: splits into complete n-byte chunks,
silently discarding the shorter-than-n tail. -/
def chunksExact (n : Nat) (l : List Nat) : List (List Nat) :=
  chunksExactAux n l.length l

/-- Models time::Date {year: u16, month: u8, day: u8}. -/
structure Date where
  year : Nat
  month : Nat
  day : Nat
deriving DecidableEq, Repr

namespace Date

/-- Derived Ord on Date: lexicographic on (year, month, day) in field order. -/
def leb (a b : Date) : Bool :=
  decide (a.year < b.year ∨ (a.year = b.year ∧
    (a.month < b.month ∨ (a.month = b.month ∧ a.day ≤ b.day))))

/-- Strict version of the derived Date order. -/
def ltb (a b : Date) : Bool :=
  decide (a.year < b.year ∨ (a.year = b.year ∧
    (a.month < b.month ∨ (a.month = b.month ∧ a.day < b.day))))

/-- Date::min. -/
def min : Date := ⟨0, 0, 0⟩

/-- Date::max. -/
def max : Date := ⟨65535, 12, 31⟩

/-- Date::to_le_bytes: year as two little-endian bytes, then month, then day. -/
def to_le_bytes (d : Date) : List Nat :=
  [d.year % 256, d.year / 256 % 256, d.month, d.day]

/-- Fields stay within their Rust machine-integer ranges. -/
def valid (d : Date) : Prop := d.year < 65536 ∧ d.month < 256 ∧ d.day < 256

instance (d : Date) : Decidable d.valid := by unfold valid; infer_instance

end Date

/-- Models time::Time {hours: u8, minutes: u8}. -/
structure Time where
  hours : Nat
  minutes : Nat
deriving DecidableEq, Repr

namespace Time

/-- Derived Ord on Time: lexicographic on (hours, minutes). -/
def leb (a b : Time) : Bool :=
  decide (a.hours < b.hours ∨ (a.hours = b.hours ∧ a.minutes ≤ b.minutes))

/-- Strict version of the derived Time order (Rust time < self._in). -/
def ltb (a b : Time) : Bool :=
  decide (a.hours < b.hours ∨ (a.hours = b.hours ∧ a.minutes < b.minutes))

/-- Time::none, the absent-time sentinel 0xFF 0xFF. -/
def none : Time := ⟨255, 255⟩

/-- Time::to_le_bytes. -/
def to_le_bytes (t : Time) : List Nat := [t.hours, t.minutes]

/-- Fields stay within u8 range. -/
def valid (t : Time) : Prop := t.hours < 256 ∧ t.minutes < 256

instance (t : Time) : Decidable t.valid := by unfold valid; infer_instance

end Time

/-- Models error::GlobalError. In the source every error is a
{error, hint : Option String} pair built by one of these constructor
functions; the claims depend only on which construction site is reached,
so the error is modelled as an enumeration of those sites, keeping the
non-presentational payloads. -/
inductive GlobalError where
  | parse (format_hint : String)
  | wrong_byte_len (typ : String) (actual expected : Nat)
  | desc_only_tag
  | fs (action typ : String)
  | desc_already_specified
  | desc_not_specified
  | pnch_already_closed
  | pnch_not_exists
  | pnch_not_open
  | formatting (typ : String)
  | ls_uncomplete_range
  | pnch_out_before_in (tin tout : Time)
  | pnch_already_open
  | config_invalid_key (key : String)
  | from_utf8_error
deriving DecidableEq, Repr

/-- Date::try_from(&[u8]): requires exactly 4 bytes, reads a little-endian
u16 year then month and day bytes. -/
def Date.try_from (buffer : List Nat) : Except GlobalError Date :=
  if buffer.length ≠ 4 then
    .error (.wrong_byte_len "date" buffer.length 4)
  else
    match buffer with
    | [b0, b1, b2, b3] => .ok ⟨b0 + 256 * b1, b2, b3⟩
    | _ => .error (.wrong_byte_len "date" buffer.length 4)

/-- Time::try_from(&[u8]): requires exactly 2 bytes. -/
def Time.try_from (buffer : List Nat) : Except GlobalError Time :=
  if buffer.length ≠ 2 then
    .error (.wrong_byte_len "time" buffer.length 2)
  else
    match buffer with
    | [b0, b1] => .ok ⟨b0, b1⟩
    | _ => .error (.wrong_byte_len "time" buffer.length 2)

/-- Models tag::Tag {id: u32, tag: String}; the text is kept as its UTF-8
byte list. -/
structure Tag where
  id : Nat
  tag : List Nat
deriving DecidableEq, Repr

namespace Tag

/-- Tag::none: the no-tag sentinel with id u32::MAX. -/
def none : Tag := ⟨4294967295, []⟩

/-- TryFrom<&[u8]> for Tag: exactly 28 bytes; id from the first 4
little-endian bytes, text from the remaining 24 bytes with every zero byte
stripped, then validated as UTF-8 (String::from_utf8). -/
def try_from (buffer : List Nat) : Except GlobalError Tag :=
  if buffer.length ≠ 28 then
    .error (.wrong_byte_len "tag" buffer.length 28)
  else
    let id_bytes := buffer.take 4
    let tag_bytes := (buffer.drop 4).filter (· ≠ 0)
    if isValidUtf8 tag_bytes then
      .ok ⟨leToU32 id_bytes, tag_bytes⟩
    else
      .error .from_utf8_error

/-- From<&Tag> for Vec<u8>: 4 little-endian id bytes, the text bytes, then
zero padding up to 28 bytes. -/
def toBytes (t : Tag) : List Nat :=
  let buffer := u32ToLe t.id ++ t.tag
  buffer ++ List.replicate (28 - buffer.length) 0

/-- Valid tag text: within the 24-byte limit, bytes below 256, no embedded
zero byte, valid UTF-8. -/
def validText (s : List Nat) : Prop :=
  s.length ≤ 24 ∧ (∀ b ∈ s, b < 256 ∧ b ≠ 0) ∧ isValidUtf8 s

/-- Valid tag: id in u32 range and valid text. -/
def valid (t : Tag) : Prop := t.id < 4294967296 ∧ validText t.tag

instance (s : List Nat) : Decidable (validText s) := by unfold validText; infer_instance

instance (t : Tag) : Decidable t.valid := by unfold valid; infer_instance

end Tag

/-- Models tag::Tags, the interning table (a vector of tags). -/
structure Tags where
  toList : List Tag
deriving DecidableEq, Repr

namespace Tags

/-- Tags::get(id): copy of the tag at index id, or None when out of bounds. -/
def get (tags : Tags) (id : Nat) : Option Tag :=
  tags.toList[id]?

/-- Tags::load, applied to the backing blob: split into exact 28-byte
chunks, decode each, fail the whole load when any chunk fails. -/
def load (blob : List Nat) : Except GlobalError Tags :=
  ((chunksExact 28 blob).mapM Tag.try_from).map Tags.mk

/-- Tags::get_or_insert(text): linear scan for equal text; on a miss,
allocate id = current length and append; returns the tag together with the
updated table. -/
def get_or_insert (tags : Tags) (tag_name : List Nat) : Tag × Tags :=
  match tags.toList.find? (fun t => t.tag = tag_name) with
  | some t => (t, tags)
  | Option.none =>
    let t : Tag := ⟨tags.toList.length, tag_name⟩
    (t, ⟨tags.toList ++ [t]⟩)

/-- Tags::save, as the byte blob it writes: every tag serialized in table
order. -/
def saveBytes (tags : Tags) : List Nat :=
  tags.toList.flatMap Tag.toBytes

end Tags

/-- Models pnch::Pnch; the description string is kept as its UTF-8 byte
list. The source field is named _in (in is a Rust keyword there too). -/
structure Pnch where
  id : Nat
  date : Date
  _in : Time
  out : Option Time
  tag : Option Tag
  description : Option (List Nat)
deriving DecidableEq, Repr

namespace Pnch

/-- Pnch::new: a fresh open punch; the source takes the date from
Date::today(), modelled as the explicit parameter today. -/
def new (id : Nat) (today : Date) (time : Time) (tag : Option Tag)
    (description : Option (List Nat)) : Pnch :=
  { id, date := today, _in := time, out := Option.none, tag, description }

/-- Pnch::out(&mut self, time, tag, description). The source mutates in
place and returns Result<(), _>; modelled as the post-state paired with
the error, if any, so that the state at the moment of an early return is
visible. Named outFn because Lean reserves Pnch.out for the field. -/
def outFn (p : Pnch) (time : Time) (tag : Option Tag) (description : Option (List Nat)) :
    Pnch × Option GlobalError :=
  if p.out.isSome then
    (p, some .pnch_already_closed)
  else if Time.ltb time p._in then
    (p, some (.pnch_out_before_in p._in time))
  else
    match description with
    | some desc =>
      if p.description.isSome then
        (p, some .desc_already_specified)
      else
        let p1 := { p with description := some desc, tag := tag }
        if p1.description.isNone then (p1, some .desc_not_specified)
        else ({ p1 with out := some time }, Option.none)
    | Option.none =>
      if p.description.isNone then (p, some .desc_not_specified)
      else ({ p with out := some time }, Option.none)

/-- Pnch::try_from(id, chunk, tags): exactly 92 bytes, split as
date(4) | in(2) | out(2) | tag id(4) | description(80); zero bytes are
stripped from the description; the out sentinel is 0xFF 0xFF; the tag is
absent when the stored id matches the literal 0xFFFF, otherwise it is
looked up in the tag table. -/
def try_from (id : Nat) (chunk : List Nat) (tags : Tags) : Except GlobalError Pnch :=
  if chunk.length ≠ 92 then
    .error (.wrong_byte_len "pnch" chunk.length 92)
  else
    let date_bytes := chunk.take 4
    let rest1 := chunk.drop 4
    let in_bytes := rest1.take 2
    let rest2 := rest1.drop 2
    let out_bytes := rest2.take 2
    let rest3 := rest2.drop 2
    let tag_id_bytes := rest3.take 4
    let description_bytes := (rest3.drop 4).filter (· ≠ 0)
    let tag := if leToU32 tag_id_bytes = 0xFFFF then Option.none
               else tags.get (leToU32 tag_id_bytes)
    do
      let out ← if out_bytes = [255, 255] then pure Option.none
                else (Time.try_from out_bytes).map some
      let description ←
        if description_bytes.length = 0 then pure Option.none
        else if isValidUtf8 description_bytes then pure (some description_bytes)
        else Except.error GlobalError.from_utf8_error
      let date ← Date.try_from date_bytes
      let tin ← Time.try_from in_bytes
      pure { id, date, _in := tin, out, tag, description }

/-- From<&Pnch> for Vec<u8>: date, in, out (sentinel when absent), tag id
(sentinel id u32::MAX when absent), description bytes, zero padding up to
92 bytes. -/
def toBytes (p : Pnch) : List Nat :=
  let buffer := p.date.to_le_bytes ++ p._in.to_le_bytes ++
    (p.out.getD Time.none).to_le_bytes ++
    (match p.tag with
     | some tag => u32ToLe tag.id
     | Option.none => u32ToLe Tag.none.id) ++
    (match p.description with
     | some description => description
     | Option.none => [])
  buffer ++ List.replicate (92 - buffer.length) 0

/-- Ord for Pnch: lexicographic comparison of (date, _in), as a Boolean
(total, non-strict) order. -/
def leb (a b : Pnch) : Bool :=
  Date.ltb a.date b.date || (a.date = b.date && Time.leb a._in b._in)

/-- The Ord relation as a Prop, used by the sort. -/
def le (a b : Pnch) : Prop := leb a b = true

instance : DecidableRel le := fun a b => by unfold le; infer_instance

instance : IsTotal Pnch le := by
  constructor
  intro a b
  obtain ⟨_, ⟨y1, m1, d1⟩, ⟨h1, n1⟩, _, _, _⟩ := a
  obtain ⟨_, ⟨y2, m2, d2⟩, ⟨h2, n2⟩, _, _, _⟩ := b
  simp only [le, leb, Date.ltb, Time.leb, Bool.or_eq_true, Bool.and_eq_true,
    decide_eq_true_eq, Date.mk.injEq]
  omega

instance : IsTrans Pnch le := by
  constructor
  intro a b c
  obtain ⟨_, ⟨y1, m1, d1⟩, ⟨h1, n1⟩, _, _, _⟩ := a
  obtain ⟨_, ⟨y2, m2, d2⟩, ⟨h2, n2⟩, _, _, _⟩ := b
  obtain ⟨_, ⟨y3, m3, d3⟩, ⟨h3, n3⟩, _, _, _⟩ := c
  simp only [le, leb, Date.ltb, Time.leb, Bool.or_eq_true, Bool.and_eq_true,
    decide_eq_true_eq, Date.mk.injEq]
  omega

/-- Valid punch relative to a tag table: date and times in machine range,
a present out time is not the absence sentinel, a present tag has an id in
u32 range other than the decoder's 0xFFFF sentinel value and is the copy
the table holds at that id (an absent tag requires the table not to hold
an entry at the sentinel index u32::MAX), and a present description is a
non-empty valid text of at most 80 bytes. -/
def valid (p : Pnch) (tags : Tags) : Prop :=
  p.date.valid ∧ p._in.valid ∧
  (∀ t ∈ p.out, t.valid ∧ t ≠ Time.none) ∧
  (match p.tag with
   | Option.none => tags.get 4294967295 = Option.none
   | some tg => tg.id < 4294967296 ∧ tg.id ≠ 0xFFFF ∧ tags.get tg.id = some tg) ∧
  (match p.description with
   | Option.none => True
   | some d => d ≠ [] ∧ d.length ≤ 80 ∧ (∀ b ∈ d, b < 256 ∧ b ≠ 0) ∧ isValidUtf8 d)

instance (p : Pnch) (tags : Tags) : Decidable (p.valid tags) := by
  unfold valid
  have h1 : Decidable (match p.tag with
      | Option.none => tags.get 4294967295 = Option.none
      | some tg => tg.id < 4294967296 ∧ tg.id ≠ 65535 ∧ tags.get tg.id = some tg) := by
    cases p.tag <;> infer_instance
  have h2 : Decidable (match p.description with
      | Option.none => True
      | some d => d ≠ [] ∧ d.length ≤ 80 ∧ (∀ b ∈ d, b < 256 ∧ b ≠ 0) ∧
          isValidUtf8 d = true) := by
    cases p.description <;> infer_instance
  infer_instance

end Pnch

/-- Models pnch::Description, the "tag/description" combo parsed from the
command line. -/
structure Description where
  tag : Option (List Nat)
  description : List Nat
deriving DecidableEq, Repr

/-- str::split_once over byte lists: split at the first occurrence of sep. -/
def splitOnce (sep : Nat) : List Nat → Option (List Nat × List Nat)
  | [] => Option.none
  | c :: cs =>
    if c = sep then some ([], cs)
    else match splitOnce sep cs with
         | some (l, r) => some (c :: l, r)
         | Option.none => Option.none

/-- FromStr for Description: split at the first forward slash (byte 47);
with no slash the whole string is the description and there is no tag.
This parse never fails. -/
def Description.from_str (s : List Nat) : Description :=
  match splitOnce 47 s with
  | some (tag, description) => ⟨some tag, description⟩
  | Option.none => ⟨Option.none, s⟩

/-- Models pnch::Pnchs, the punch store (a vector of punches). -/
structure Pnchs where
  toList : List Pnch
deriving DecidableEq, Repr

namespace Pnchs

/-- Vec::sort through Ord for Pnch: a stable sort by (date, in), modelled
by insertion sort (stable sorts by a total preorder agree extensionally). -/
def sortPnchs (l : List Pnch) : List Pnch := List.insertionSort Pnch.le l

/-- The enumerate-decode-collect step of Pnchs::load: decode each chunk
with its sequential index as id, failing the whole list on the first
failing chunk. -/
def decodeChunks (tags : Tags) : Nat → List (List Nat) → Except GlobalError (List Pnch)
  | _, [] => .ok []
  | id, c :: cs => do
      let p ← Pnch.try_from id c tags
      let ps ← decodeChunks tags (id + 1) cs
      pure (p :: ps)

/-- Pnchs::load, applied to the backing blob: split into exact 92-byte
chunks, decode each with its index as id, then sort by (date, in). -/
def load (tags : Tags) (blob : List Nat) : Except GlobalError Pnchs :=
  (decodeChunks tags 0 (chunksExact 92 blob)).map (fun l => ⟨sortPnchs l⟩)

/-- Pnchs::_in: fails when the (positionally) last punch is open,
otherwise appends. -/
def _in (s : Pnchs) (pnch : Pnch) : Except GlobalError Pnchs :=
  match s.toList.getLast? with
  | some p =>
    if p.out.isNone then .error .pnch_already_open
    else .ok ⟨s.toList ++ [pnch]⟩
  | Option.none => .ok ⟨s.toList ++ [pnch]⟩

/-- Pnchs::get(id): first punch whose id field equals id. -/
def get (s : Pnchs) (id : Nat) : Option Pnch :=
  s.toList.find? (fun p => p.id = id)

/-- Pnchs::get_last. -/
def get_last (s : Pnchs) : Option Pnch := s.toList.getLast?

/-- The Commands::Out path of main::run at the store level: Pnch::out on
the punch returned by get_last, with the mutation written back. -/
def outLast (s : Pnchs) (time : Time) (tag : Option Tag) (description : Option (List Nat)) :
    Except GlobalError Pnchs :=
  match s.toList.getLast? with
  | Option.none => .error .pnch_not_open
  | some p =>
    match Pnch.outFn p time tag description with
    | (_, some e) => .error e
    | (p1, Option.none) => .ok ⟨s.toList.dropLast ++ [p1]⟩

/-- Pnchs::save, as the byte blob it writes: every punch serialized in the
current in-memory order. -/
def saveBytes (s : Pnchs) : List Nat :=
  (s.toList.map Pnch.toBytes).flatten

end Pnchs

/-- The in-memory state of one run: the tag table and the punch store. -/
structure RunState where
  tags : Tags
  pnchs : Pnchs
deriving DecidableEq, Repr

/-- The tag/description resolution shared by the In and Out commands:
description.map(|d| (d.tag.map(|t| tags.get_or_insert(t)), Some(d.description)))
  .unwrap_or((None, None)). -/
def resolveEntry (tags : Tags) (description : Option Description) :
    Option Tag × Option (List Nat) × Tags :=
  match description with
  | some d =>
    match d.tag with
    | some t =>
      let (tg, tags1) := tags.get_or_insert t
      (some tg, some d.description, tags1)
    | Option.none => (Option.none, some d.description, tags)
  | Option.none => (Option.none, Option.none, tags)

/-- Commands::In of main::run: resolve the entry, build a new punch with
id = store length and today's date, and append through Pnchs::_in. -/
def cmdIn (st : RunState) (today : Date) (time : Time) (description : Option Description) :
    Except GlobalError RunState :=
  let (tag, desc, tags) := resolveEntry st.tags description
  let id := st.pnchs.toList.length
  (st.pnchs._in (Pnch.new id today time tag desc)).map (fun ps => ⟨tags, ps⟩)

/-- Commands::Out of main::run: fails when the store is empty, otherwise
resolves the entry and closes the last punch. -/
def cmdOut (st : RunState) (time : Time) (description : Option Description) :
    Except GlobalError RunState :=
  match st.pnchs.get_last with
  | Option.none => .error .pnch_not_open
  | some _ =>
    let (tag, desc, tags) := resolveEntry st.tags description
    (st.pnchs.outLast time tag desc).map (fun ps => ⟨tags, ps⟩)

/-- Commands::Edit of main::run: select the punch by id (or the last one),
then overwrite out, in and tag/description with whichever arguments were
given; no lifecycle check is re-run. -/
def cmdEdit (st : RunState) (idArg : Option Nat) (description : Option Description)
    (newIn newOut : Option Time) : Except GlobalError RunState :=
  let idx := match idArg with
    | some id => st.pnchs.toList.findIdx? (fun (p : Pnch) => p.id = id)
    | Option.none =>
      if st.pnchs.toList.isEmpty then Option.none
      else some (st.pnchs.toList.length - 1)
  match idx with
  | Option.none => .error .pnch_not_open
  | some i =>
    let applyTimes : Pnch → Pnch := fun p =>
      let p2 := match newOut with
        | some o => { p with out := some o }
        | Option.none => p
      match newIn with
      | some t => { p2 with _in := t }
      | Option.none => p2
    match description with
    | some d =>
      let (tag, tags) := match d.tag with
        | some t =>
          let (tg, tags1) := st.tags.get_or_insert t
          (some tg, tags1)
        | Option.none => (Option.none, st.tags)
      .ok ⟨tags, ⟨List.modify (fun p =>
        { applyTimes p with tag := tag, description := some d.description }) i st.pnchs.toList⟩⟩
    | Option.none =>
      .ok ⟨st.tags, ⟨List.modify applyTimes i st.pnchs.toList⟩⟩

/-- The date stage of the Commands::Ls filter, with the option defaults
already applied: the punch is kept only when it fails none of the bounds
(date not before since, not before the rolling-window date, and inside
from..to). -/
def lsFilterDates (since lastAsSince fromD toD : Date) (p : Pnch) : Bool :=
  if Date.ltb p.date since then false
  else if Date.ltb p.date lastAsSince then false
  else if Date.ltb p.date fromD || Date.ltb toD p.date then false
  else true

/-- The tag stage of the Commands::Ls filter: no filter keeps everything;
with a filter, only a punch carrying a tag with exactly equal text is
kept. -/
def lsFilterTag (tagFilter : Option (List Nat)) (p : Pnch) : Bool :=
  match p.tag, tagFilter with
  | _, Option.none => true
  | some pnchTag, some filterTag => pnchTag.tag = filterTag
  | Option.none, some _ => false

/-- Commands::Ls of main::run: reject an incomplete from/to range, default
since/from/to to min/min/max, then apply the date stage and the tag stage.
The rolling-window date last.unwrap_or(config.ls_default_period)
.to_date_since_today() depends on the clock and is passed as lastAsSince. -/
def cmdLs (pnchs : Pnchs) (since : Option Date) (lastAsSince : Date)
    (fromArg toArg : Option Date) (tagFilter : Option (List Nat)) :
    Except GlobalError Pnchs :=
  if (fromArg.isSome && toArg.isNone) || (fromArg.isNone && toArg.isSome) then
    .error .ls_uncomplete_range
  else
    let since1 := since.getD Date.min
    let from1 := fromArg.getD Date.min
    let to1 := toArg.getD Date.max
    .ok ⟨(pnchs.toList.filter (lsFilterDates since1 lastAsSince from1 to1)).filter
          (lsFilterTag tagFilter)⟩

/-- Modelled from the spec, for comparison with the code's filter: the
date bounds (since, the from..to range, the rolling window) are a union —
a punch passes the date stage when it satisfies at least one active bound
— and that result is then intersected with the tag filter. A supplied
bound is active; the rolling window is always active. -/
def lsFilterSpecUnion (since : Option Date) (lastAsSince : Date)
    (fromArg toArg : Option Date) (tagFilter : Option (List Nat)) (p : Pnch) : Bool :=
  let sinceOk := match since with
    | some s => !Date.ltb p.date s
    | Option.none => false
  let lastOk := !Date.ltb p.date lastAsSince
  let rangeOk := match fromArg, toArg with
    | some f, some t => !Date.ltb p.date f && !Date.ltb t p.date
    | _, _ => false
  (sinceOk || lastOk || rangeOk) && lsFilterTag tagFilter p

/-- Models time::Period. -/
inductive Period where
  | days (n : Nat)
  | weeks (n : Nat)
  | months (n : Nat)
  | years (n : Nat)
deriving DecidableEq, Repr

/-- Modelled from the spec: Period::as_days is called by Config::save but
its definition is not among the source files under src; spec section 3
says a period converts by n * {1, 7, 30, 365} days. -/
def Period.as_days : Period → Nat
  | .days n => n
  | .weeks n => n * 7
  | .months n => n * 30
  | .years n => n * 365

/-- Models config::Config. -/
structure Config where
  print_color : Bool
  ls_default_period : Period
deriving DecidableEq, Repr

namespace Config

/-- Default for Config: colored printing, a two-week listing window. -/
def default : Config := ⟨true, .weeks 2⟩

/-- Config::load, applied to the backing blob: empty means defaults,
otherwise exactly 5 bytes: print_color is byte 0 compared against zero and
the period is the remaining little-endian u32 read back as days. -/
def load (blob : List Nat) : Except GlobalError Config :=
  if blob.length = 0 then .ok Config.default
  else if blob.length ≠ 5 then .error (.wrong_byte_len "config" blob.length 5)
  else
    match blob with
    | b0 :: rest => .ok ⟨decide (b0 ≠ 0), .days (leToU32 rest)⟩
    | [] => .error (.wrong_byte_len "config" 0 5)

/-- Config::save, as the byte blob it writes: one print_color byte then
the period converted to days as a little-endian u32. -/
def saveBytes (c : Config) : List Nat :=
  (if c.print_color then 1 else 0) :: u32ToLe c.ls_default_period.as_days

/-- Valid config: the period in days fits in u32. -/
def valid (c : Config) : Prop := c.ls_default_period.as_days < 4294967296

end Config

/-- The two lifecycle operations of one run that do preserve the
open-punch invariant, as a single step relation over the store. -/
inductive CoreOp where
  | opIn (pnch : Pnch)
  | opOut (time : Time) (tag : Option Tag) (description : Option (List Nat))
deriving Repr

/-- One lifecycle step on the store: punch in (append) or punch out
(close the last punch). -/
def stepOp (s : Pnchs) : CoreOp → Except GlobalError Pnchs
  | .opIn p => s._in p
  | .opOut t tg d => s.outLast t tg d

/-- The store-shape invariant the lifecycle checks actually maintain:
every punch except possibly the positionally last one is closed (hence at
most one punch is open and it sits in the last slot). -/
def openOnlyLast (s : Pnchs) : Prop :=
  ∀ p ∈ s.toList.dropLast, p.out.isSome

instance (s : Pnchs) : Decidable (openOnlyLast s) := by
  unfold openOnlyLast; infer_instance

/-- A date used by the concrete examples. -/
def exDate : Date := ⟨2023, 5, 10⟩

/-- A punch for the ls-filter example: May 10 2023, 9:00 to 10:00. -/
def c1Pnch : Pnch := ⟨0, exDate, ⟨9, 0⟩, some ⟨10, 0⟩, Option.none, some [97]⟩

/-- A closed punch carrying a present but empty description: every text
field is within its byte limit and has no zero byte. -/
def c2BadPnch : Pnch := ⟨0, exDate, ⟨9, 0⟩, some ⟨10, 0⟩, Option.none, some []⟩

/-- A run of in/out/reload steps: punch in at 9:00 with a description,
punch out at 10:00, punch in again backdated to 8:00, save and reload
(which re-sorts), then punch in once more at 11:00. -/
def c3State : Except GlobalError RunState :=
  (cmdIn ⟨⟨[]⟩, ⟨[]⟩⟩ exDate ⟨9, 0⟩ (some ⟨Option.none, [97]⟩)).bind (fun st =>
    (cmdOut st ⟨10, 0⟩ Option.none).bind (fun st =>
      (cmdIn st exDate ⟨8, 0⟩ Option.none).bind (fun st =>
        ((Pnchs.load st.tags st.pnchs.saveBytes).map (fun ps => RunState.mk st.tags ps)).bind
          (fun st => cmdIn st exDate ⟨11, 0⟩ Option.none))))

/-- A tag whose text contains an embedded zero byte. -/
def c4Tag : Tag := ⟨0, [97, 0, 98]⟩

/-- A punch whose description contains an embedded zero byte. -/
def c4Pnch : Pnch := ⟨0, exDate, ⟨9, 0⟩, some ⟨10, 0⟩, Option.none, some [97, 0, 98]⟩

/-- A two-record blob whose first record is chronologically later than its
second. -/
def c7Blob : List Nat :=
  Pnch.toBytes ⟨0, ⟨2023, 5, 11⟩, ⟨9, 0⟩, some ⟨10, 0⟩, Option.none, some [97]⟩ ++
  Pnch.toBytes ⟨0, ⟨2023, 5, 10⟩, ⟨9, 0⟩, some ⟨10, 0⟩, Option.none, some [97]⟩

/-- A tag table large enough to hold an entry at index 0xFFFF. -/
def c8Tags : Tags := ⟨List.replicate 70000 ⟨7, [98]⟩⟩

/-- A punch record whose stored tag id is 0xFFFF (bytes FF FF 00 00). -/
def c8Chunk : List Nat :=
  Date.to_le_bytes ⟨2023, 5, 10⟩ ++ [9, 0] ++ [10, 0] ++ [255, 255, 0, 0] ++ [97] ++
  List.replicate 79 0

/-- A punch with no tag, used to check the encoder's sentinel. -/
def c8NoTagPnch : Pnch := ⟨0, ⟨2023, 5, 10⟩, ⟨9, 0⟩, some ⟨10, 0⟩, Option.none, some [97]⟩

deriving instance DecidableEq for Except

theorem chunksExact_of_lt (n : Nat) (l : List Nat) (h : l.length < n) :
    chunksExact n l = [] := by
  unfold chunksExact
  cases hl : l.length with
  | zero => rfl
  | succ f => simp [chunksExactAux, h]

theorem chunksExactAux_eq (n : Nat) (hn : 0 < n) :
    ∀ fuel l, l.length ≤ fuel → chunksExactAux n fuel l = chunksExact n l := by
  intro fuel
  induction fuel using Nat.strong_induction_on with
  | _ fuel ih =>
    intro l h
    cases fuel with
    | zero =>
      have hl : l = [] := List.length_eq_zero.mp (Nat.le_zero.mp h)
      subst hl
      rfl
    | succ f =>
      by_cases hl : l.length < n
      · rw [chunksExact_of_lt n l hl]
        simp [chunksExactAux, hl]
      · push_neg at hl
        have hd : (l.drop n).length = l.length - n := List.length_drop n l
        obtain ⟨g, hg⟩ : ∃ g, l.length = g + 1 := ⟨l.length - 1, by omega⟩
        unfold chunksExact
        rw [hg]
        simp only [chunksExactAux]
        rw [if_neg (by omega), if_neg (by omega)]
        congr 1
        rw [ih f (by omega) (l.drop n) (by omega), ih g (by omega) (l.drop n) (by omega)]

theorem chunksExact_step (n : Nat) (hn : 0 < n) (l : List Nat) (h : n ≤ l.length) :
    chunksExact n l = l.take n :: chunksExact n (l.drop n) := by
  obtain ⟨g, hg⟩ : ∃ g, l.length = g + 1 := ⟨l.length - 1, by omega⟩
  unfold chunksExact
  rw [hg]
  simp only [chunksExactAux]
  rw [if_neg (by omega)]
  have hd : (l.drop n).length = l.length - n := List.length_drop n l
  rw [chunksExactAux_eq n hn g (l.drop n) (by omega)]
  rfl

theorem chunksExact_append (n : Nat) (hn : 0 < n) (l r : List Nat)
    (hdvd : n ∣ l.length) (hr : r.length < n) :
    chunksExact n (l ++ r) = chunksExact n l := by
  obtain ⟨k, hk⟩ := hdvd
  induction k generalizing l with
  | zero =>
    have hl : l = [] := List.length_eq_zero.mp (by omega)
    subst hl
    rw [List.nil_append, chunksExact_of_lt n r hr, chunksExact_of_lt n [] (by simpa using hn)]
  | succ k ih =>
    have hnl : n ≤ l.length := hk ▸ Nat.le_mul_of_pos_right n (Nat.succ_pos k)
    have hlen : (l ++ r).length = l.length + r.length := List.length_append l r
    rw [chunksExact_step n hn (l ++ r) (by omega), chunksExact_step n hn l hnl]
    rw [List.take_append_of_le_length hnl, List.drop_append_of_le_length hnl]
    have hdlen : (l.drop n).length = n * k := by
      rw [List.length_drop, hk, Nat.mul_succ]
      omega
    rw [ih (l.drop n) hdlen]

theorem chunksExact_length (n : Nat) (hn : 0 < n) (l : List Nat) :
    (chunksExact n l).length = l.length / n := by
  generalize hN : l.length = N
  induction N using Nat.strong_induction_on generalizing l with
  | _ N ih =>
    subst hN
    by_cases h : l.length < n
    · rw [chunksExact_of_lt n l h]
      simp [Nat.div_eq_of_lt h]
    · push_neg at h
      rw [chunksExact_step n hn l h]
      simp only [List.length_cons]
      have hd : (l.drop n).length = l.length - n := List.length_drop n l
      rw [ih (l.drop n).length (by omega) (l.drop n) rfl, hd]
      rw [Nat.div_eq_sub_div hn h]

/-- C1: the date bounds of the ls query are combined as a conjunction, not
the specified union: the concrete punch (2023-05-10) matches the supplied
since bound (2023-01-01) but fails the from..to range (2023-06-01 to
2023-06-02), and the code's filter drops it, while the union-then-tag
filter written from the spec keeps it. -/
theorem C1_ls_filter_is_conjunction_not_union :
    cmdLs ⟨[c1Pnch]⟩ (some ⟨2023, 1, 1⟩) Date.min (some ⟨2023, 6, 1⟩) (some ⟨2023, 6, 2⟩)
        Option.none = .ok ⟨[]⟩ ∧
    lsFilterSpecUnion (some ⟨2023, 1, 1⟩) Date.min (some ⟨2023, 6, 1⟩) (some ⟨2023, 6, 2⟩)
        Option.none c1Pnch = true := by
  decide

/-- C10: whenever Pnch::out returns an error, the punch is left unchanged:
every early-return error path of the modelled outFn yields the original
punch as the post-state. -/
theorem C10_out_error_leaves_punch_unchanged (p : Pnch) (t : Time) (tg : Option Tag)
    (d : Option (List Nat)) (p1 : Pnch) (e : GlobalError)
    (h : Pnch.outFn p t tg d = (p1, some e)) : p1 = p := by
  unfold Pnch.outFn at h
  repeat' split at h
  all_goals simp_all

/-- C10 witness: closing an already-closed punch errors and leaves it
unchanged. -/
theorem C10_out_error_leaves_punch_unchanged_witness :
    (⟨0, exDate, ⟨9, 0⟩, some ⟨10, 0⟩, Option.none, some [97]⟩ : Pnch) =
      ⟨0, exDate, ⟨9, 0⟩, some ⟨10, 0⟩, Option.none, some [97]⟩ :=
  C10_out_error_leaves_punch_unchanged
    ⟨0, exDate, ⟨9, 0⟩, some ⟨10, 0⟩, Option.none, some [97]⟩ ⟨11, 0⟩ Option.none Option.none
    ⟨0, exDate, ⟨9, 0⟩, some ⟨10, 0⟩, Option.none, some [97]⟩ .pnch_already_closed (by decide)

/-- C9 counterexample: the tag/description grammar maps "a/" to an empty
description, and punch_out accepts it: closing an open punch that has no
description with the empty-string description succeeds and produces a
closed punch whose description is present but empty, contradicting the
claim that no reachable closed punch carries an empty description. -/
theorem C9_counterexample :
    Description.from_str [97, 47] = ⟨some [97], []⟩ ∧
    Pnch.outFn (Pnch.new 0 exDate ⟨9, 0⟩ Option.none Option.none) ⟨10, 0⟩ Option.none
        (some []) =
      (⟨0, exDate, ⟨9, 0⟩, some ⟨10, 0⟩, Option.none, some []⟩, Option.none) := by
  decide

/-- C9 amended: a successful punch_out always sets out to the given time
and leaves a present description, but that description may be the empty
string (and the edit command can close a punch with no description at
all). -/
theorem C9_amended_closed_description_present (p : Pnch) (t : Time) (tg : Option Tag)
    (d : Option (List Nat)) (p1 : Pnch)
    (h : Pnch.outFn p t tg d = (p1, Option.none)) :
    p1.out = some t ∧ p1.description.isSome := by
  unfold Pnch.outFn at h
  repeat' split at h
  all_goals simp_all
  all_goals (subst h; simp_all [Option.isSome_iff_ne_none])

/-- C9 witness for the amended theorem: closing a punch that got its
description at creation succeeds with the description present. -/
theorem C9_amended_witness :
    (⟨0, exDate, ⟨9, 0⟩, some ⟨10, 0⟩, Option.none, some [97]⟩ : Pnch).out = some ⟨10, 0⟩ ∧
    (⟨0, exDate, ⟨9, 0⟩, some ⟨10, 0⟩, Option.none, some [97]⟩ : Pnch).description.isSome :=
  C9_amended_closed_description_present
    ⟨0, exDate, ⟨9, 0⟩, Option.none, Option.none, some [97]⟩ ⟨10, 0⟩ Option.none Option.none
    ⟨0, exDate, ⟨9, 0⟩, some ⟨10, 0⟩, Option.none, some [97]⟩ (by decide)

/-- C5 counterexample: a 29-byte tag blob and a 93-byte punch blob — both
lengths not multiples of the record width — are loaded successfully, the
trailing byte silently ignored, contradicting the claim that such loads
fail. -/
theorem C5_counterexample :
    (List.replicate 28 0 ++ [1]).length % 28 ≠ 0 ∧
    Tags.load (List.replicate 28 0 ++ [1]) = .ok ⟨[⟨0, []⟩]⟩ ∧
    (List.replicate 92 0 ++ [1]).length % 92 ≠ 0 ∧
    Pnchs.load ⟨[]⟩ (List.replicate 92 0 ++ [1]) =
      .ok ⟨[⟨0, ⟨0, 0, 0⟩, ⟨0, 0⟩, some ⟨0, 0⟩, Option.none, Option.none⟩]⟩ := by
  decide

/-- C5 amended: neither load ever fails because of a length that is not a
multiple of the record width; instead both decode exactly the complete
leading chunks and silently ignore any shorter trailing fragment, so a
blob with up to 27 (respectively 91) trailing bytes loads exactly like the
blob without them. -/
theorem C5_amended_trailing_bytes_ignored (l1 r1 l2 r2 : List Nat) (tags : Tags)
    (h1 : 28 ∣ l1.length) (h2 : r1.length < 28)
    (h3 : 92 ∣ l2.length) (h4 : r2.length < 92) :
    Tags.load (l1 ++ r1) = Tags.load l1 ∧
    Pnchs.load tags (l2 ++ r2) = Pnchs.load tags l2 := by
  constructor
  · unfold Tags.load
    rw [chunksExact_append 28 (by norm_num) l1 r1 h1 h2]
  · unfold Pnchs.load
    rw [chunksExact_append 92 (by norm_num) l2 r2 h3 h4]

/-- C5 witness for the amended theorem, at the 29- and 93-byte blobs. -/
theorem C5_amended_witness :
    Tags.load (List.replicate 28 0 ++ [1]) = Tags.load (List.replicate 28 0) ∧
    Pnchs.load ⟨[]⟩ (List.replicate 92 0 ++ [1]) = Pnchs.load ⟨[]⟩ (List.replicate 92 0) :=
  C5_amended_trailing_bytes_ignored (List.replicate 28 0) [1] (List.replicate 92 0) [1] ⟨[]⟩
    (by decide) (by decide) (by decide) (by decide)

/-- C6: whatever byte sequence Pnchs::load accepts, the resulting store is
sorted ascending by (date, in-time): the sort step runs on every load. -/
theorem C6_load_sorted (tags : Tags) (blob : List Nat) (s : Pnchs)
    (h : Pnchs.load tags blob = .ok s) :
    s.toList.Pairwise Pnch.le := by
  unfold Pnchs.load at h
  cases hd : Pnchs.decodeChunks tags 0 (chunksExact 92 blob) with
  | error e => rw [hd] at h; simp [Except.map] at h
  | ok l =>
    rw [hd] at h
    simp only [Except.map, Except.ok.injEq] at h
    subst h
    exact List.sorted_insertionSort Pnch.le l

/-- C6 witness: loading a two-record blob whose records are out of order
yields a sorted store. -/
theorem C6_load_sorted_witness :
    (⟨[⟨1, ⟨2023, 5, 10⟩, ⟨9, 0⟩, some ⟨10, 0⟩, Option.none, some [97]⟩,
       ⟨0, ⟨2023, 5, 11⟩, ⟨9, 0⟩, some ⟨10, 0⟩, Option.none, some [97]⟩]⟩ : Pnchs).toList.Pairwise
      Pnch.le :=
  C6_load_sorted ⟨[]⟩
    (Pnch.toBytes ⟨0, ⟨2023, 5, 11⟩, ⟨9, 0⟩, some ⟨10, 0⟩, Option.none, some [97]⟩ ++
     Pnch.toBytes ⟨0, ⟨2023, 5, 10⟩, ⟨9, 0⟩, some ⟨10, 0⟩, Option.none, some [97]⟩)
    ⟨[⟨1, ⟨2023, 5, 10⟩, ⟨9, 0⟩, some ⟨10, 0⟩, Option.none, some [97]⟩,
      ⟨0, ⟨2023, 5, 11⟩, ⟨9, 0⟩, some ⟨10, 0⟩, Option.none, some [97]⟩]⟩ (by decide)

/-- C8: the decoder compares the stored tag id against the literal 0xFFFF
instead of the u32::MAX sentinel the encoder writes: a record whose stored
tag id is 0xFFFF decodes to an absent tag even though the tag table holds
an entry at index 0xFFFF, contradicting the claim that a non-u32::MAX id
always yields the table lookup; the encoder does write all-0xFF bytes for
an absent tag. -/
theorem C8_decoder_uses_0xFFFF_sentinel :
    Pnch.try_from 0 c8Chunk c8Tags =
      .ok ⟨0, ⟨2023, 5, 10⟩, ⟨9, 0⟩, some ⟨10, 0⟩, Option.none, some [97]⟩ ∧
    c8Tags.get 0xFFFF = some ⟨7, [98]⟩ ∧
    ((Pnch.toBytes c8NoTagPnch).drop 8).take 4 = [255, 255, 255, 255] := by
  refine ⟨by decide, ?_, by decide⟩
  unfold c8Tags Tags.get
  rw [List.getElem?_replicate]
  norm_num

theorem try_from_id (id : Nat) (chunk : List Nat) (tags : Tags) (p : Pnch)
    (h : Pnch.try_from id chunk tags = .ok p) : p.id = id := by
  unfold Pnch.try_from at h
  split at h
  · simp at h
  · simp only [bind, Except.bind] at h
    repeat' split at h
    all_goals simp_all [pure, Except.pure, Except.map]
    all_goals rw [← h]

theorem decodeChunks_ids (tags : Tags) :
    ∀ cs i ps, Pnchs.decodeChunks tags i cs = .ok ps →
      ps.map Pnch.id = List.range' i cs.length := by
  intro cs
  induction cs with
  | nil =>
    intro i ps h
    simp only [Pnchs.decodeChunks, Except.ok.injEq] at h
    subst h
    simp [List.range']
  | cons c cs ih =>
    intro i ps h
    simp only [Pnchs.decodeChunks, bind, Except.bind] at h
    cases h1 : Pnch.try_from i c tags with
    | error e => rw [h1] at h; simp at h
    | ok p =>
      rw [h1] at h
      cases h2 : Pnchs.decodeChunks tags (i + 1) cs with
      | error e => rw [h2] at h; simp at h
      | ok ps1 =>
        rw [h2] at h
        simp only [pure, Except.pure, Except.ok.injEq] at h
        subst h
        simp only [List.map_cons, List.length_cons, List.range'_succ, List.cons.injEq]
        exact ⟨try_from_id i c tags p h1, ih (i + 1) ps1 h2⟩

/-- C7 counterexample: loading a blob whose first record is chronologically
later than its second yields a store whose punch at position 0 carries id 1
(and position 1 carries id 0), contradicting the claim that after load the
punch at position k has id k. -/
theorem C7_counterexample :
    Except.map (fun s => Pnchs.toList s |>.map Pnch.id) (Pnchs.load ⟨[]⟩ c7Blob) =
      .ok [1, 0] := by
  decide

/-- C7 amended: ids are assigned sequentially in file order before the
sort, so after load the ids form a permutation of 0..N-1 (N the number of
complete 92-byte records); the punch at position k has id k only when the
file is already sorted. -/
theorem C7_amended_ids_permute_range (tags : Tags) (blob : List Nat) (s : Pnchs)
    (h : Pnchs.load tags blob = .ok s) :
    (s.toList.map Pnch.id).Perm (List.range (blob.length / 92)) := by
  unfold Pnchs.load at h
  cases hd : Pnchs.decodeChunks tags 0 (chunksExact 92 blob) with
  | error e => rw [hd] at h; simp [Except.map] at h
  | ok l =>
    rw [hd] at h
    simp only [Except.map, Except.ok.injEq] at h
    subst h
    have hperm : (Pnchs.sortPnchs l).Perm l := List.perm_insertionSort Pnch.le l
    have hmap := hperm.map Pnch.id
    rw [decodeChunks_ids tags _ 0 l hd] at hmap
    rw [chunksExact_length 92 (by norm_num) blob] at hmap
    rw [List.range_eq_range']
    exact hmap

/-- C7 witness for the amended theorem: the ids of the store loaded from
the out-of-order blob are a permutation of 0..1. -/
theorem C7_amended_witness :
    ((⟨[⟨1, ⟨2023, 5, 10⟩, ⟨9, 0⟩, some ⟨10, 0⟩, Option.none, some [97]⟩,
        ⟨0, ⟨2023, 5, 11⟩, ⟨9, 0⟩, some ⟨10, 0⟩, Option.none, some [97]⟩]⟩ : Pnchs).toList.map
      Pnch.id).Perm (List.range (c7Blob.length / 92)) :=
  C7_amended_ids_permute_range ⟨[]⟩ c7Blob
    ⟨[⟨1, ⟨2023, 5, 10⟩, ⟨9, 0⟩, some ⟨10, 0⟩, Option.none, some [97]⟩,
      ⟨0, ⟨2023, 5, 11⟩, ⟨9, 0⟩, some ⟨10, 0⟩, Option.none, some [97]⟩]⟩ (by decide)

/-- C3 counterexample: a run of legal operations — punch in 9:00 with a
description, punch out 10:00, punch in backdated to 8:00, save and reload
(which re-sorts and moves the open punch away from the last slot), punch
in again at 11:00 — succeeds end to end and reaches a store holding two
open punches, contradicting the claimed invariant that every operation
preserves at most one open punch placed chronologically last. -/
theorem C3_counterexample :
    Except.map (fun st =>
        (st.pnchs.toList.filter (fun p => p.out.isNone)).length) c3State = .ok 2 := by
  decide

/-- C3 amended: within one run, punch_in and punch_out do preserve the
store-shape invariant that every punch except possibly the positionally
last is closed (hence at most one open punch, sitting in the last slot);
the chronological part of the claim, the reload step and the edit command
are excluded, as the counterexample run breaks them. -/
theorem C3_amended_in_out_preserve_open_only_last (s s1 : Pnchs) (op : CoreOp)
    (hinv : openOnlyLast s) (hstep : stepOp s op = .ok s1) : openOnlyLast s1 := by
  cases op with
  | opIn p =>
    simp only [stepOp, Pnchs._in] at hstep
    cases hlast : s.toList.getLast? with
    | none =>
      rw [hlast] at hstep
      have hstep2 : (Except.ok ⟨s.toList ++ [p]⟩ : Except GlobalError Pnchs) = .ok s1 := hstep
      injection hstep2 with hs1
      subst hs1
      have hnil : s.toList = [] := List.getLast?_eq_none_iff.mp hlast
      intro x hx
      rw [hnil] at hx
      simp at hx
    | some q =>
      rw [hlast] at hstep
      have hstep2 : (if q.out.isNone = true then
            (Except.error GlobalError.pnch_already_open : Except GlobalError Pnchs)
          else .ok ⟨s.toList ++ [p]⟩) = .ok s1 := hstep
      cases hqout : q.out with
      | none =>
        rw [hqout] at hstep2
        exact Except.noConfusion hstep2
      | some tq =>
        rw [hqout] at hstep2
        have hstep3 : (Except.ok ⟨s.toList ++ [p]⟩ : Except GlobalError Pnchs) = .ok s1 := hstep2
        injection hstep3 with hs1
        subst hs1
        intro x hx
        simp only [List.dropLast_concat] at hx
        have hdecomp : s.toList.dropLast ++ [q] = s.toList :=
          List.dropLast_append_getLast? q hlast
        rw [← hdecomp] at hx
        rcases List.mem_append.mp hx with hmem | hmem
        · exact hinv x hmem
        · have hxq : x = q := by simpa using hmem
          subst hxq
          rw [hqout]
          rfl
  | opOut t tg d =>
    simp only [stepOp, Pnchs.outLast] at hstep
    cases hlast : s.toList.getLast? with
    | none =>
      rw [hlast] at hstep
      exact Except.noConfusion hstep
    | some q =>
      rw [hlast] at hstep
      have hstep2 : (match Pnch.outFn q t tg d with
          | (_, some e) => (Except.error e : Except GlobalError Pnchs)
          | (p1, Option.none) => .ok ⟨s.toList.dropLast ++ [p1]⟩) = .ok s1 := hstep
      cases hout : Pnch.outFn q t tg d with
      | mk p1 oe =>
        rw [hout] at hstep2
        cases oe with
        | some e => exact Except.noConfusion hstep2
        | none =>
          have hstep3 : (Except.ok ⟨s.toList.dropLast ++ [p1]⟩ : Except GlobalError Pnchs)
              = .ok s1 := hstep2
          injection hstep3 with hs1
          subst hs1
          intro x hx
          rw [List.dropLast_concat] at hx
          exact hinv x hx

/-- C3 witness for the amended theorem: punching in on a store whose last
punch is closed preserves the invariant. -/
theorem C3_amended_witness :
    openOnlyLast ⟨[⟨0, exDate, ⟨9, 0⟩, some ⟨10, 0⟩, Option.none, some [97]⟩,
                   ⟨1, exDate, ⟨11, 0⟩, Option.none, Option.none, Option.none⟩]⟩ :=
  C3_amended_in_out_preserve_open_only_last
    ⟨[⟨0, exDate, ⟨9, 0⟩, some ⟨10, 0⟩, Option.none, some [97]⟩]⟩
    ⟨[⟨0, exDate, ⟨9, 0⟩, some ⟨10, 0⟩, Option.none, some [97]⟩,
      ⟨1, exDate, ⟨11, 0⟩, Option.none, Option.none, Option.none⟩]⟩
    (.opIn ⟨1, exDate, ⟨11, 0⟩, Option.none, Option.none, Option.none⟩)
    (by decide) (by decide)

theorem date_roundtrip (d : Date) (h : d.year < 65536) :
    Date.try_from d.to_le_bytes = .ok d := by
  obtain ⟨y, m, dd⟩ := d
  have h2 : y < 65536 := h
  simp only [Date.to_le_bytes, Date.try_from]
  norm_num
  omega

theorem time_roundtrip (t : Time) : Time.try_from t.to_le_bytes = .ok t := by
  obtain ⟨h, m⟩ := t
  rfl

theorem filter_strip_pad (l : List Nat) (k : Nat) :
    (l ++ List.replicate k 0).filter (· ≠ 0) = l.filter (· ≠ 0) := by
  rw [List.filter_append, List.filter_replicate]
  simp

theorem tag_decode_encode_strip (t : Tag) (hid : t.id < 4294967296)
    (hlen : t.tag.length ≤ 24)
    (hu : isValidUtf8 (t.tag.filter (· ≠ 0)) = true) :
    Tag.try_from (Tag.toBytes t) = .ok ⟨t.id, t.tag.filter (· ≠ 0)⟩ := by
  have hassoc : Tag.toBytes t =
      u32ToLe t.id ++ (t.tag ++ List.replicate (24 - t.tag.length) 0) := by
    show (u32ToLe t.id ++ t.tag) ++
        List.replicate (28 - (u32ToLe t.id ++ t.tag).length) 0 = _
    have hc : 28 - (u32ToLe t.id ++ t.tag).length = 24 - t.tag.length := by
      simp [List.length_append, u32ToLe]
    rw [hc, List.append_assoc]
  have hlen28 : (Tag.toBytes t).length = 28 := by
    rw [hassoc]
    simp [List.length_append, u32ToLe, List.length_replicate]
    omega
  unfold Tag.try_from
  rw [if_neg (by simp [hlen28])]
  simp only [hassoc]
  rw [List.take_left' (u32ToLe_length t.id), List.drop_left' (u32ToLe_length t.id)]
  rw [filter_strip_pad]
  rw [if_pos hu]
  rw [leToU32_u32ToLe t.id hid]

theorem try_from_split (id : Nat) (tags : Tags) (A B C D E : List Nat)
    (hA : A.length = 4) (hB : B.length = 2) (hC : C.length = 2) (hD : D.length = 4)
    (hE : E.length = 80) :
    Pnch.try_from id (A ++ (B ++ (C ++ (D ++ E)))) tags =
      (do
        let out ← if C = [255, 255] then pure Option.none
                  else (Time.try_from C).map some
        let description ←
          if (E.filter (· ≠ 0)).length = 0 then pure Option.none
          else if isValidUtf8 (E.filter (· ≠ 0)) then pure (some (E.filter (· ≠ 0)))
          else Except.error GlobalError.from_utf8_error
        let date ← Date.try_from A
        let tin ← Time.try_from B
        pure { id, date, _in := tin, out,
               tag := if leToU32 D = 0xFFFF then Option.none else tags.get (leToU32 D),
               description }) := by
  unfold Pnch.try_from
  rw [if_neg (by simp [List.length_append, hA, hB, hC, hD, hE])]
  simp only [List.take_left' hA, List.drop_left' hA, List.take_left' hB, List.drop_left' hB,
    List.take_left' hC, List.drop_left' hC, List.take_left' hD, List.drop_left' hD]

theorem config_load_save (c : Config) (n : Nat) (hc : c.ls_default_period = .days n)
    (hn : n < 4294967296) : Config.load (Config.saveBytes c) = .ok c := by
  obtain ⟨pc, period⟩ := c
  simp only at hc
  subst hc
  cases pc with
  | true =>
    simp only [Config.saveBytes, Period.as_days, Config.load, List.length_cons,
      u32ToLe_length]
    rw [if_neg (by omega), if_neg (by omega)]
    rw [leToU32_u32ToLe n hn]
    rfl
  | false =>
    simp only [Config.saveBytes, Period.as_days, Config.load, List.length_cons,
      u32ToLe_length]
    rw [if_neg (by omega), if_neg (by omega)]
    rw [leToU32_u32ToLe n hn]
    rfl

theorem time_ne_none_bytes (t : Time) (h : t ≠ Time.none) : t.to_le_bytes ≠ [255, 255] := by
  obtain ⟨th, tm⟩ := t
  simp only [Time.to_le_bytes, ne_eq, List.cons.injEq, and_true]
  intro hcon
  exact h (by simp [Time.none, hcon.1, hcon.2])

set_option maxHeartbeats 2000000 in
theorem pnch_decode_encode (p : Pnch) (tags : Tags) (hp : p.valid tags) :
    Pnch.try_from p.id (Pnch.toBytes p) tags = .ok p := by
  obtain ⟨pid, pdate, pin, pout, ptag, pdesc⟩ := p
  obtain ⟨hdateV, hinV, houtV, htagV, hdescV⟩ := hp
  have hdate' : pdate.valid := hdateV
  have hout' : ∀ t ∈ pout, t.valid ∧ t ≠ Time.none := houtV
  have hA : pdate.to_le_bytes.length = 4 := rfl
  have hB : pin.to_le_bytes.length = 2 := rfl
  have hC : ((pout.getD Time.none).to_le_bytes).length = 2 := rfl
  cases ptag with
  | some tg =>
    have htag' : tg.id < 4294967296 ∧ tg.id ≠ 65535 ∧ tags.get tg.id = some tg := htagV
    cases pdesc with
    | some d =>
      obtain ⟨hne, hlen80, hbytes, hutf⟩ :
          d ≠ [] ∧ d.length ≤ 80 ∧ (∀ b ∈ d, b < 256 ∧ b ≠ 0) ∧ isValidUtf8 d = true := hdescV
      have htb : Pnch.toBytes ⟨pid, pdate, pin, pout, some tg, some d⟩ =
          pdate.to_le_bytes ++ (pin.to_le_bytes ++ ((pout.getD Time.none).to_le_bytes ++
            (u32ToLe tg.id ++ (d ++ List.replicate (80 - d.length) 0)))) := by
        show (pdate.to_le_bytes ++ pin.to_le_bytes ++ (pout.getD Time.none).to_le_bytes ++
            u32ToLe tg.id ++ d) ++
          List.replicate (92 - (pdate.to_le_bytes ++ pin.to_le_bytes ++
            (pout.getD Time.none).to_le_bytes ++ u32ToLe tg.id ++ d).length) 0 = _
        have hlen : (pdate.to_le_bytes ++ pin.to_le_bytes ++
            (pout.getD Time.none).to_le_bytes ++ u32ToLe tg.id ++ d).length = 12 + d.length := by
          simp [List.length_append, Date.to_le_bytes, Time.to_le_bytes, u32ToLe]
          omega
        rw [hlen, show 92 - (12 + d.length) = 80 - d.length from by omega]
        simp [List.append_assoc]
      rw [htb, try_from_split pid tags _ _ _ _ _ hA hB hC (u32ToLe_length tg.id)
        (by simp [List.length_append, List.length_replicate]; omega)]
      have hfilter : ((d ++ List.replicate (80 - d.length) 0).filter (· ≠ 0)) = d := by
        rw [filter_strip_pad]
        exact List.filter_eq_self.mpr (fun a ha => by simpa using (hbytes a ha).2)
      have hfilter2 : List.filter (fun x => !decide (x = 0)) d = d :=
        List.filter_eq_self.mpr (fun a ha => by simpa using (hbytes a ha).2)
      have hne0 : ¬(d.length = 0) := fun hh => hne (List.length_eq_zero.mp hh)
      have hzero : ¬(∀ a ∈ d, a = 0) := by
        cases d with
        | nil => exact absurd rfl hne
        | cons a l => exact fun hall => (hbytes a (by simp)).2 (hall a (by simp))
      have hpin : Time.try_from [pin.hours, pin.minutes] = .ok pin := time_roundtrip pin
      cases pout with
      | none =>
        simp [hfilter, hfilter2, hne0, hzero, hutf, bind, Except.bind, pure, Except.pure,
          Except.map, Time.none, Time.to_le_bytes, date_roundtrip pdate hdate'.1, hpin,
          time_roundtrip pin, leToU32_u32ToLe tg.id htag'.1, htag'.2.1, htag'.2.2]
      | some t =>
        have hCne : t.to_le_bytes ≠ [255, 255] :=
          time_ne_none_bytes t (hout' t (by simp)).2
        simp [hfilter, hfilter2, hne0, hzero, hutf, hCne, bind, Except.bind, pure,
          Except.pure, Except.map, Option.getD_some, date_roundtrip pdate hdate'.1, hpin,
          time_roundtrip pin, time_roundtrip t, leToU32_u32ToLe tg.id htag'.1, htag'.2.1,
          htag'.2.2]
    | none =>
      have htb : Pnch.toBytes ⟨pid, pdate, pin, pout, some tg, Option.none⟩ =
          pdate.to_le_bytes ++ (pin.to_le_bytes ++ ((pout.getD Time.none).to_le_bytes ++
            (u32ToLe tg.id ++ List.replicate 80 0))) := rfl
      rw [htb]
      rw [try_from_split pid tags _ _ _ _ (List.replicate 80 0) hA hB hC
        (u32ToLe_length tg.id) rfl]
      have hrep : ((List.replicate 80 0 : List Nat).filter (· ≠ 0)) = [] := rfl
      have hrep2 : List.filter (fun x => !decide (x = 0)) (List.replicate 80 0 : List Nat) = [] :=
        rfl
      have hallzero : ∀ a ∈ (List.replicate 80 0 : List Nat), a = 0 :=
        fun a ha => List.eq_of_mem_replicate ha
      have hpin : Time.try_from [pin.hours, pin.minutes] = .ok pin := time_roundtrip pin
      cases pout with
      | none =>
        simp [hrep, hrep2, hallzero, bind, Except.bind, pure, Except.pure, Except.map,
          Time.none, Time.to_le_bytes, date_roundtrip pdate hdate'.1, hpin,
          time_roundtrip pin, leToU32_u32ToLe tg.id htag'.1, htag'.2.1, htag'.2.2]
      | some t =>
        have hCne : t.to_le_bytes ≠ [255, 255] :=
          time_ne_none_bytes t (hout' t (by simp)).2
        simp [hrep, hrep2, hallzero, hCne, bind, Except.bind, pure, Except.pure, Except.map,
          Option.getD_some, date_roundtrip pdate hdate'.1, hpin, time_roundtrip pin,
          time_roundtrip t, leToU32_u32ToLe tg.id htag'.1, htag'.2.1, htag'.2.2]
  | none =>
    have htag' : tags.get 4294967295 = Option.none := htagV
    have hU : leToU32 (u32ToLe (4294967295 : Nat)) = 4294967295 := rfl
    have hneF : (4294967295 : Nat) ≠ 65535 := by norm_num
    cases pdesc with
    | some d =>
      obtain ⟨hne, hlen80, hbytes, hutf⟩ :
          d ≠ [] ∧ d.length ≤ 80 ∧ (∀ b ∈ d, b < 256 ∧ b ≠ 0) ∧ isValidUtf8 d = true := hdescV
      have htb : Pnch.toBytes ⟨pid, pdate, pin, pout, Option.none, some d⟩ =
          pdate.to_le_bytes ++ (pin.to_le_bytes ++ ((pout.getD Time.none).to_le_bytes ++
            (u32ToLe Tag.none.id ++ (d ++ List.replicate (80 - d.length) 0)))) := by
        show (pdate.to_le_bytes ++ pin.to_le_bytes ++ (pout.getD Time.none).to_le_bytes ++
            u32ToLe Tag.none.id ++ d) ++
          List.replicate (92 - (pdate.to_le_bytes ++ pin.to_le_bytes ++
            (pout.getD Time.none).to_le_bytes ++ u32ToLe Tag.none.id ++ d).length) 0 = _
        have hlen : (pdate.to_le_bytes ++ pin.to_le_bytes ++
            (pout.getD Time.none).to_le_bytes ++ u32ToLe Tag.none.id ++ d).length =
            12 + d.length := by
          simp [List.length_append, Date.to_le_bytes, Time.to_le_bytes, u32ToLe]
          omega
        rw [hlen, show 92 - (12 + d.length) = 80 - d.length from by omega]
        simp [List.append_assoc]
      rw [htb, try_from_split pid tags _ _ _ _ _ hA hB hC (u32ToLe_length Tag.none.id)
        (by simp [List.length_append, List.length_replicate]; omega)]
      have hfilter : ((d ++ List.replicate (80 - d.length) 0).filter (· ≠ 0)) = d := by
        rw [filter_strip_pad]
        exact List.filter_eq_self.mpr (fun a ha => by simpa using (hbytes a ha).2)
      have hfilter2 : List.filter (fun x => !decide (x = 0)) d = d :=
        List.filter_eq_self.mpr (fun a ha => by simpa using (hbytes a ha).2)
      have hne0 : ¬(d.length = 0) := fun hh => hne (List.length_eq_zero.mp hh)
      have hzero : ¬(∀ a ∈ d, a = 0) := by
        cases d with
        | nil => exact absurd rfl hne
        | cons a l => exact fun hall => (hbytes a (by simp)).2 (hall a (by simp))
      have hpin : Time.try_from [pin.hours, pin.minutes] = .ok pin := time_roundtrip pin
      cases pout with
      | none =>
        simp [hfilter, hfilter2, hne0, hzero, hutf, bind, Except.bind, pure, Except.pure,
          Except.map, Time.none, Time.to_le_bytes, date_roundtrip pdate hdate'.1, hpin,
          time_roundtrip pin, Tag.none, hU, hneF, htag']
      | some t =>
        have hCne : t.to_le_bytes ≠ [255, 255] :=
          time_ne_none_bytes t (hout' t (by simp)).2
        simp [hfilter, hfilter2, hne0, hzero, hutf, hCne, bind, Except.bind, pure,
          Except.pure, Except.map, Option.getD_some, date_roundtrip pdate hdate'.1, hpin,
          time_roundtrip pin, time_roundtrip t, Tag.none, hU, hneF, htag']
    | none =>
      have htb : Pnch.toBytes ⟨pid, pdate, pin, pout, Option.none, Option.none⟩ =
          pdate.to_le_bytes ++ (pin.to_le_bytes ++ ((pout.getD Time.none).to_le_bytes ++
            (u32ToLe Tag.none.id ++ List.replicate 80 0))) := rfl
      rw [htb]
      rw [try_from_split pid tags _ _ _ _ (List.replicate 80 0) hA hB hC
        (u32ToLe_length Tag.none.id) rfl]
      have hrep : ((List.replicate 80 0 : List Nat).filter (· ≠ 0)) = [] := rfl
      have hrep2 : List.filter (fun x => !decide (x = 0)) (List.replicate 80 0 : List Nat) = [] :=
        rfl
      have hallzero : ∀ a ∈ (List.replicate 80 0 : List Nat), a = 0 :=
        fun a ha => List.eq_of_mem_replicate ha
      have hpin : Time.try_from [pin.hours, pin.minutes] = .ok pin := time_roundtrip pin
      cases pout with
      | none =>
        simp [hrep, hrep2, hallzero, bind, Except.bind, pure, Except.pure, Except.map,
          Time.none, Time.to_le_bytes, date_roundtrip pdate hdate'.1, hpin,
          time_roundtrip pin, Tag.none, hU, hneF, htag']
      | some t =>
        have hCne : t.to_le_bytes ≠ [255, 255] :=
          time_ne_none_bytes t (hout' t (by simp)).2
        simp [hrep, hrep2, hallzero, hCne, bind, Except.bind, pure, Except.pure, Except.map,
          Option.getD_some, date_roundtrip pdate hdate'.1, hpin, time_roundtrip pin,
          time_roundtrip t, Tag.none, hU, hneF, htag']

/-- C4 counterexample: encoding is infallible, so a Tag text (or a Punch
description) with an embedded zero byte is encoded as-is and decodes back
to a different, shortened string instead of the claimed encode-time error. -/
theorem C4_counterexample :
    Tag.try_from (Tag.toBytes c4Tag) = .ok ⟨0, [97, 98]⟩ ∧
    c4Tag.tag = [97, 0, 98] ∧
    Pnch.try_from 0 (Pnch.toBytes c4Pnch) ⟨[]⟩ =
      .ok ⟨0, exDate, ⟨9, 0⟩, some ⟨10, 0⟩, Option.none, some [97, 98]⟩ ∧
    c4Pnch.description = some [97, 0, 98] := by
  decide

/-- C4 amended: encoding never fails; a tag text containing embedded zero
bytes round-trips to the text with every zero byte silently removed (the
punch description behaves the same way, as the counterexample shows
concretely). -/
theorem C4_amended_encode_total_decode_strips (t : Tag) (hid : t.id < 4294967296)
    (hlen : t.tag.length ≤ 24) (hu : isValidUtf8 (t.tag.filter (· ≠ 0)) = true) :
    Tag.try_from (Tag.toBytes t) = .ok ⟨t.id, t.tag.filter (· ≠ 0)⟩ :=
  tag_decode_encode_strip t hid hlen hu

/-- C4 witness for the amended theorem: a concrete tag with a zero byte
inside its text encodes, and decodes to the stripped text. -/
theorem C4_amended_witness :
    Tag.try_from (Tag.toBytes ⟨1, [97, 0, 98]⟩) =
      .ok ⟨1, ([97, 0, 98] : List Nat).filter (· ≠ 0)⟩ :=
  C4_amended_encode_total_decode_strips ⟨1, [97, 0, 98]⟩ (by norm_num) (by decide) (by decide)

/-- C2 counterexample: a punch whose description is present but empty is
valid by the claim's own side conditions (text within limits, no zero
bytes), yet decoding its encoding yields the punch with an absent
description, so decode(encode(v)) differs from v. -/
theorem C2_counterexample :
    Pnch.try_from 0 (Pnch.toBytes c2BadPnch) ⟨[]⟩ =
      .ok ⟨0, exDate, ⟨9, 0⟩, some ⟨10, 0⟩, Option.none, Option.none⟩ ∧
    (⟨0, exDate, ⟨9, 0⟩, some ⟨10, 0⟩, Option.none, Option.none⟩ : Pnch) ≠ c2BadPnch := by
  decide

/-- C2 amended: decode(encode(v)) = v holds for a Tag with valid text, for
a Punch whose description is absent or non-empty, whose out time is not
the 0xFF 0xFF sentinel, and whose tag reference is consistent with the tag
table (absent with no table entry at the u32::MAX index, or present with
an id other than the decoder's 0xFFFF sentinel value that the table maps
back to the same tag) — the punch decoded with the id it carried — and
for a Config whose listing period is expressed in days. -/
theorem C2_roundtrip_amended (t : Tag) (p : Pnch) (c : Config) (tags : Tags) (n : Nat)
    (ht : t.valid) (hp : p.valid tags) (hc : c.ls_default_period = .days n)
    (hn : n < 4294967296) :
    Tag.try_from (Tag.toBytes t) = .ok t ∧
    Pnch.try_from p.id (Pnch.toBytes p) tags = .ok p ∧
    Config.load (Config.saveBytes c) = .ok c := by
  obtain ⟨hid, hlen, hbytes, hutf⟩ : t.id < 4294967296 ∧ t.tag.length ≤ 24 ∧
      (∀ b ∈ t.tag, b < 256 ∧ b ≠ 0) ∧ isValidUtf8 t.tag = true := ⟨ht.1, ht.2.1, ht.2.2.1, ht.2.2.2⟩
  have hself : t.tag.filter (· ≠ 0) = t.tag :=
    List.filter_eq_self.mpr (fun a ha => by simpa using (hbytes a ha).2)
  refine ⟨?_, pnch_decode_encode p tags hp, config_load_save c n hc hn⟩
  have := tag_decode_encode_strip t hid hlen (by rw [hself]; exact hutf)
  rw [hself] at this
  exact this

/-- C2 witness for the amended round-trip, at a concrete tag, a concrete
tagged and described punch consistent with a one-entry tag table, and a
concrete days-based config. -/
theorem C2_roundtrip_amended_witness :
    Tag.try_from (Tag.toBytes ⟨5, [97]⟩) = .ok ⟨5, [97]⟩ ∧
    Pnch.try_from (3 : Nat)
        (Pnch.toBytes ⟨3, ⟨2023, 5, 10⟩, ⟨9, 0⟩, some ⟨10, 0⟩, some ⟨0, [98]⟩, some [99]⟩)
        ⟨[⟨0, [98]⟩]⟩ =
      .ok ⟨3, ⟨2023, 5, 10⟩, ⟨9, 0⟩, some ⟨10, 0⟩, some ⟨0, [98]⟩, some [99]⟩ ∧
    Config.load (Config.saveBytes ⟨false, .days 14⟩) = .ok ⟨false, .days 14⟩ :=
  C2_roundtrip_amended ⟨5, [97]⟩
    ⟨3, ⟨2023, 5, 10⟩, ⟨9, 0⟩, some ⟨10, 0⟩, some ⟨0, [98]⟩, some [99]⟩
    ⟨false, .days 14⟩ ⟨[⟨0, [98]⟩]⟩ 14 (by decide) (by decide) rfl (by norm_num)
